import Mathlib

/-!
Shallow embedding of `compiler/helpers.go` (package `compiler` of the
gnostic repository): the order-preserving YAML tree helpers, the document
loader `ReadFile`, and the reference resolver `ReadInfoForRef` with its
process-wide cache.

Go values of type `interface{}` (the contents of a parsed YAML document)
are modelled by `GoVal`.  A `yaml.MapSlice` is a `List (GoVal × GoVal)`.
Failure modes of the Go code are made explicit:

* `GoOutcome.exited n`   — the process terminated via `os.Exit` / `log.Fatal`;
* `GoOutcome.panicked s` — a runtime panic (failed type assertion,
  `panic(err)` in `PatternMatches`, nil dereference);
* `Except.error s`       — used in the pure helpers for a panic outcome.

External collaborators (the filesystem, HTTP, `url.Parse`, and
`yaml.Unmarshal`) are parameters of the embedding, collected in `Env`;
the I/O actually performed by a call is reported as a list of `IOEvent`s.
-/

/-- A Go `interface{}` value as produced by the YAML parser. -/
inductive GoVal where
  /-- the nil interface value -/
  | nil : GoVal
  | str : String → GoVal
  | int : Int → GoVal
  | bool : Bool → GoVal
  /-- a `yaml.MapSlice`: ordered key/value pairs, keys are arbitrary values -/
  | mapSlice : List (GoVal × GoVal) → GoVal
  /-- a `[]interface{}` sequence node -/
  | seq : List GoVal → GoVal

/-- A `yaml.MapSlice`. -/
abbrev MapSlice := List (GoVal × GoVal)

/-- Outcome of running a piece of Go code that may exit the process or panic. -/
inductive GoOutcome (α : Type) where
  | ok : α → GoOutcome α
  /-- the process terminated with this exit status (`os.Exit`, `log.Fatal`) -/
  | exited : Nat → GoOutcome α
  /-- a runtime panic -/
  | panicked : String → GoOutcome α

/-- Go's `section.Key == key` where `key` is a `string`: interface comparison,
true exactly when the dynamic type is `string` and the values agree
(comparison against a different dynamic type is `false`, never a panic). -/
def keyEqString (k : GoVal) (key : String) : Bool :=
  match k with
  | GoVal.str s => s = key
  | _ => false

/-- `UnpackMap`: the `in.(yaml.MapSlice)` checked type assertion. -/
def UnpackMap : GoVal → Option MapSlice
  | GoVal.mapSlice m => some m
  | _ => none

/-- The `item.Key.(string)` unchecked type assertions performed by
`SortedKeysForMap` over every item: collect the keys, panicking at the first
non-string key. -/
def collectKeys : MapSlice → Except String (List String)
  | [] => Except.ok []
  | (k, _) :: rest =>
    match k with
    | GoVal.str s =>
      match collectKeys rest with
      | Except.ok l => Except.ok (s :: l)
      | Except.error e => Except.error e
    | _ => Except.error "interface conversion: interface is not string"

/-- Insert a string into a sorted list (helper for `sort.Strings`). -/
def insertSorted (s : String) : List String → List String
  | [] => [s]
  | t :: rest => if s ≤ t then s :: t :: rest else t :: insertSorted s rest

/-- `sort.Strings`, as an insertion sort. -/
def sortStrings : List String → List String
  | [] => []
  | s :: rest => insertSorted s (sortStrings rest)

/-- `SortedKeysForMap`: the keys of the mapping, sorted; panics (error) on a
non-string key. -/
def SortedKeysForMap (m : MapSlice) : Except String (List String) :=
  match collectKeys m with
  | Except.ok keys => Except.ok (sortStrings keys)
  | Except.error e => Except.error e

/-- `MapHasKey`: scan the items in order; `item.Key.(string)` panics at the
first non-string key reached before a match. -/
def MapHasKey : MapSlice → String → Except String Bool
  | [], _ => Except.ok false
  | (k, _) :: rest, key =>
    match k with
    | GoVal.str s =>
      if key = s then Except.ok true else MapHasKey rest key
    | _ => Except.error "interface conversion: interface is not string"

/-- `MapValueForKey`: like `MapHasKey` but returning the value, `nil` when the
key is absent. -/
def MapValueForKey : MapSlice → String → Except String GoVal
  | [], _ => Except.ok GoVal.nil
  | (k, v) :: rest, key =>
    match k with
    | GoVal.str s =>
      if key = s then Except.ok v else MapValueForKey rest key
    | _ => Except.error "interface conversion: interface is not string"

/-- `PatternMatches`: `regexp.Match(pattern, value)`, with the `panic(err)`
branch when the regular-expression engine reports an error (a pattern that
does not compile).  The engine itself is external; it is passed in as
`matchRE`, whose `error` results are exactly the erroring calls. -/
def PatternMatches (matchRE : String → String → Except String Bool)
    (pattern : String) (value : String) : Except String Bool :=
  match matchRE pattern value with
  | Except.ok matched => Except.ok matched
  | Except.error err => Except.error err

/-- `MissingKeysInMap`: the required keys not present in the mapping, in the
order of `requiredKeys`. -/
def MissingKeysInMap (m : MapSlice) : List String → Except String (List String)
  | [] => Except.ok []
  | k :: rest =>
    match MapHasKey m k with
    | Except.ok h =>
      match MissingKeysInMap m rest with
      | Except.ok l => Except.ok (if h then l else k :: l)
      | Except.error e => Except.error e
    | Except.error e => Except.error e

/-- The inner loop of `InvalidKeysInMap`: try the allowed patterns in order,
stopping at the first match; a `PatternMatches` panic propagates. -/
def findPatternMatch (matchRE : String → String → Except String Bool)
    (key : String) : List String → Except String Bool
  | [] => Except.ok false
  | p :: rest =>
    match PatternMatches matchRE p key with
    | Except.ok true => Except.ok true
    | Except.ok false => findPatternMatch matchRE key rest
    | Except.error e => Except.error e

/-- `InvalidKeysInMap`: the keys of the mapping that neither equal an allowed
key nor match an allowed pattern, in mapping iteration order.  A non-string
key panics (`item.Key.(string)`); an erroring pattern panics via
`PatternMatches`. -/
def InvalidKeysInMap (matchRE : String → String → Except String Bool)
    (m : MapSlice) (allowedKeys : List String) (allowedPatterns : List String) :
    Except String (List String) :=
  match m with
  | [] => Except.ok []
  | (k, _) :: rest =>
    match k with
    | GoVal.str key =>
      if key ∈ allowedKeys then
        InvalidKeysInMap matchRE rest allowedKeys allowedPatterns
      else
        match findPatternMatch matchRE key allowedPatterns with
        | Except.ok found =>
          match InvalidKeysInMap matchRE rest allowedKeys allowedPatterns with
          | Except.ok l => Except.ok (if found then l else key :: l)
          | Except.error e => Except.error e
        | Except.error e => Except.error e
    | _ => Except.error "interface conversion: interface is not string"

/-- Result of `http.Get` followed by `ioutil.ReadAll(response.Body)`. -/
inductive HttpFetch where
  /-- `http.Get` itself returned an error -/
  | getFailed : HttpFetch
  /-- the GET succeeded but reading the body failed -/
  | bodyUnreadable : HttpFetch
  /-- the body, fully read -/
  | body : String → HttpFetch

/-- The external collaborators of the loader, fixed for the process lifetime
(documents are treated as immutable). -/
structure Env where
  /-- `url.Parse`: `some scheme` on success (`scheme` may be empty),
  `none` when parsing fails (the Go code ignores the error and then
  dereferences the nil result). -/
  urlParse : String → Option String
  /-- `http.Get` + `ioutil.ReadAll` on the response body -/
  httpGet : String → HttpFetch
  /-- `ioutil.ReadFile`: the file contents, or `none` on a read error -/
  readLocalFile : String → Option String
  /-- `yaml.Unmarshal` into a `yaml.MapSlice`: `none` on a parse error
  (the Go code ignores the error, leaving the zero value) -/
  unmarshal : String → Option MapSlice

/-- An I/O action performed by the loader. -/
inductive IOEvent where
  | httpGetOf : String → IOEvent
  | fileReadOf : String → IOEvent
deriving DecidableEq

/-- `ReadFile filename`: classify the locator via `url.Parse`, fetch or read
it, and unmarshal.  Returns the outcome together with the I/O performed.
Faithful to the source: a `url.Parse` error panics (the error is discarded
and the nil result dereferenced); a local read error prints and calls
`os.Exit(1)`; an `http.Get` error calls `log.Fatal`; an unreadable response
body falls through to `return nil`; an unmarshal error is ignored, returning
the zero-value `yaml.MapSlice`. -/
def ReadFile (env : Env) (filename : String) : GoOutcome GoVal × List IOEvent :=
  match env.urlParse filename with
  | none => (GoOutcome.panicked "runtime error: invalid memory address or nil pointer dereference", [])
  | some scheme =>
    if scheme ≠ "" then
      match env.httpGet filename with
      | HttpFetch.getFailed => (GoOutcome.exited 1, [IOEvent.httpGetOf filename])
      | HttpFetch.bodyUnreadable => (GoOutcome.ok GoVal.nil, [IOEvent.httpGetOf filename])
      | HttpFetch.body bytes =>
        (GoOutcome.ok (GoVal.mapSlice ((env.unmarshal bytes).getD [])),
         [IOEvent.httpGetOf filename])
    else
      match env.readLocalFile filename with
      | none => (GoOutcome.exited 1, [IOEvent.fileReadOf filename])
      | some bytes =>
        (GoOutcome.ok (GoVal.mapSlice ((env.unmarshal bytes).getD [])),
         [IOEvent.fileReadOf filename])

/-- Go's `strings.Split` for a one-character separator. -/
def splitOnChar (sep : Char) : List Char → List (List Char)
  | [] => [[]]
  | c :: rest =>
    let r := splitOnChar sep rest
    if c = sep then [] :: r
    else (c :: r.headD []) :: r.tail

/-- `strings.Split(s, sep)` for a one-character separator, over strings. -/
def splitString (sep : Char) (s : String) : List String :=
  (splitOnChar sep s.toList).map (fun cs => String.mk cs)

/-- The directory component of `filepath.Split` on a list of characters:
the longest prefix ending at the last `/`, empty if there is none. -/
def dirChars : List Char → List Char
  | [] => []
  | c :: rest =>
    let d := dirChars rest
    if d.isEmpty ∧ c ≠ '/' then [] else c :: d

/-- `basedir, _ := filepath.Split(basefile)` (Unix separator). -/
def dirOf (p : String) : String :=
  String.mk (dirChars p.toList)

/-- The filename computed by `ReadInfoForRef`:
`parts := strings.Split(ref, "#")`; if `parts[0]` is non-empty the filename is
`basedir + parts[0]`, otherwise `basefile` itself. -/
def refFilename (basefile ref : String) : String :=
  if ((splitString '#' ref).headD "") ≠ "" then
    dirOf basefile ++ ((splitString '#' ref).headD "")
  else basefile

/-- The inner loop over the sections of a mapping: `info` is replaced by the
value of every section whose key equals `key`; the last match wins, and
`info` is unchanged when no section matches. -/
def lookupScan (m : MapSlice) (key : String) (info : GoVal) : GoVal :=
  m.foldl (fun acc kv => if keyEqString kv.1 key then kv.2 else acc) info

/-- One step of the fragment walk: descend by `key` when the current node is
a `yaml.MapSlice` containing it; otherwise leave the node unchanged. -/
def walkStep (info : GoVal) (key : String) : GoVal :=
  match info with
  | GoVal.mapSlice m => lookupScan m key info
  | _ => info

/-- The fragment walk of `ReadInfoForRef`: split the fragment on `/`,
skip the first segment (index 0), and fold `walkStep` over the rest. -/
def walkFragment (frag : String) (doc : GoVal) : GoVal :=
  ((splitString '/' frag).drop 1).foldl walkStep doc

/-- The `if len(parts) > 1` guard of `ReadInfoForRef`: walk the fragment
(`parts[1]`) when the reference contains a `#`, otherwise keep the loaded
document. -/
def walkRef (ref : String) (info0 : GoVal) : GoVal :=
  match (splitString '#' ref)[1]? with
  | some frag => walkFragment frag info0
  | none => info0

/-- The process-wide state of the resolver: `info_cache` (`none` before the
lazy `make`) and `count`. -/
structure CacheState where
  info_cache : Option (List (String × GoVal))
  count : Int

/-- Lookup in the cache association list (a Go `map[string]interface{}`
restricted to the operations the source uses). -/
def cacheLookup : List (String × GoVal) → String → Option GoVal
  | [], _ => none
  | (k, v) :: rest, ref => if k = ref then some v else cacheLookup rest ref

/-- `ReadInfoForRef basefile ref`: return the cached fragment if present;
otherwise compute the filename, load it with `ReadFile`, walk the fragment
path (when the reference contains a `#`), store the result in the cache
under `ref`, and return it.  Process exits and panics from `ReadFile`
propagate; the I/O performed is reported alongside. -/
def ReadInfoForRef (env : Env) (basefile ref : String) (st : CacheState) :
    GoOutcome (GoVal × CacheState) × List IOEvent :=
  match cacheLookup (st.info_cache.getD []) ref with
  | some info =>
    (GoOutcome.ok (info, { info_cache := some (st.info_cache.getD []), count := st.count }), [])
  | none =>
    match ReadFile env (refFilename basefile ref) with
    | (GoOutcome.ok info0, evs) =>
      (GoOutcome.ok
        (walkRef ref info0,
         { info_cache := some ((ref, walkRef ref info0) :: st.info_cache.getD []),
           count := st.count + 1 }),
       evs)
    | (GoOutcome.exited n, evs) => (GoOutcome.exited n, evs)
    | (GoOutcome.panicked s, evs) => (GoOutcome.panicked s, evs)

/-- An environment in which every locator is a local file holding a document
that parses to the one-entry mapping `a: v`. -/
def envLocalDoc : Env where
  urlParse := fun _ => some ""
  httpGet := fun _ => HttpFetch.getFailed
  readLocalFile := fun _ => some "doc"
  unmarshal := fun _ => some [(GoVal.str "a", GoVal.str "v")]

/-- An environment in which every locator is a local file that cannot be
read (missing file). -/
def envMissingFile : Env where
  urlParse := fun _ => some ""
  httpGet := fun _ => HttpFetch.getFailed
  readLocalFile := fun _ => none
  unmarshal := fun _ => some []

/-- An environment in which every locator is a readable local file whose
bytes do not parse as YAML (`yaml.Unmarshal` reports an error). -/
def envBadYaml : Env where
  urlParse := fun _ => some ""
  httpGet := fun _ => HttpFetch.getFailed
  readLocalFile := fun _ => some "not yaml"
  unmarshal := fun _ => none

/-- An environment in which every locator parses as a URL with scheme
`http` and fetches a document successfully. -/
def envHttp : Env where
  urlParse := fun _ => some "http"
  httpGet := fun _ => HttpFetch.body "doc"
  readLocalFile := fun _ => none
  unmarshal := fun _ => some [(GoVal.str "a", GoVal.str "v")]

/-- A regular-expression engine model in which the pattern `(` fails to
compile (as in Go's `regexp`) and every other pattern matches nothing. -/
def matchFailsOnOpenParen : String → String → Except String Bool :=
  fun p _ =>
    if p = "(" then Except.error "error parsing regexp: missing closing )"
    else Except.ok false

/-- The string keys of a mapping, in iteration order, skipping non-string
keys (used to state result-ordering properties). -/
def stringKeys (m : MapSlice) : List String :=
  m.filterMap (fun kv => match kv.1 with | GoVal.str s => some s | _ => none)

/-! Helper lemmas. -/

theorem splitOnChar_ne_nil (sep : Char) (l : List Char) : splitOnChar sep l ≠ [] := by
  cases l with
  | nil => simp [splitOnChar]
  | cons c rest =>
    simp only [splitOnChar]
    by_cases h : c = sep <;> simp [h]

theorem splitOnChar_headD (sep : Char) (l : List Char) :
    (splitOnChar sep l).headD [] = l.takeWhile (fun c => c ≠ sep) := by
  induction l with
  | nil => simp [splitOnChar]
  | cons c rest ih =>
    simp only [splitOnChar, List.takeWhile]
    by_cases h : c = sep
    · simp [h]
    · simp only [if_neg h]
      simp only [List.headD_cons]
      rw [show (decide ¬(c = sep)) = true by simp [h]]
      simpa using ih

theorem splitString_headD (sep : Char) (s : String) :
    (splitString sep s).headD "" = String.mk (s.toList.takeWhile (fun c => c ≠ sep)) := by
  unfold splitString
  rcases h : splitOnChar sep s.toList with _ | ⟨x, xs⟩
  · exact absurd h (splitOnChar_ne_nil sep s.toList)
  · have := splitOnChar_headD sep s.toList
    rw [h] at this
    simp only [List.headD] at this
    simp [this]

theorem lookupScan_of_no_match (m : MapSlice) (key : String) (info : GoVal)
    (h : ∀ kv ∈ m, keyEqString kv.1 key = false) : lookupScan m key info = info := by
  induction m generalizing info with
  | nil => rfl
  | cons kv rest ih =>
    have h0 : keyEqString kv.1 key = false := h kv (List.mem_cons_self kv rest)
    have hrest : ∀ kv' ∈ rest, keyEqString kv'.1 key = false :=
      fun kv' h' => h kv' (List.mem_cons_of_mem kv h')
    show List.foldl _ info (kv :: rest) = info
    rw [List.foldl_cons]
    simp only [h0, Bool.false_eq_true, if_false, ite_false]
    exact ih info hrest

theorem readFile_events_len (env : Env) (f : String) : (ReadFile env f).2.length ≤ 1 := by
  unfold ReadFile
  split
  · simp
  · split
    · split <;> simp
    · split <;> simp

theorem readInfoForRef_events_len (env : Env) (basefile ref : String) (st : CacheState) :
    (ReadInfoForRef env basefile ref st).2.length ≤ 1 := by
  unfold ReadInfoForRef
  split
  · simp
  · have hlen := readFile_events_len env (refFilename basefile ref)
    split <;> rename_i heq <;> rw [heq] at hlen <;> simpa using hlen

theorem readInfoForRef_ok_lookup (env : Env) (basefile ref : String) (st : CacheState)
    {v : GoVal} {st' : CacheState} {t : List IOEvent}
    (h : ReadInfoForRef env basefile ref st = (GoOutcome.ok (v, st'), t)) :
    cacheLookup (st'.info_cache.getD []) ref = some v := by
  unfold ReadInfoForRef at h
  split at h
  · rename_i info hc
    simp only [Prod.mk.injEq, GoOutcome.ok.injEq] at h
    obtain ⟨⟨hv, hst⟩, ht⟩ := h
    subst hst
    simpa [hv] using hc
  · rename_i hc
    split at h
    · rename_i info0 evs hrf
      simp only [Prod.mk.injEq, GoOutcome.ok.injEq] at h
      obtain ⟨⟨hv, hst⟩, ht⟩ := h
      subst hst
      simp [cacheLookup, hv]
    · simp at h
    · simp at h

/-! The claims. -/

/-- C2: calling `ReadInfoForRef` twice with the same reference string and an
unchanged environment returns the identical cached result both times, the
second call performs no I/O at all, and at most one document load happens
across both invocations. -/
theorem readInfoForRef_idempotent (env : Env) (basefile ref : String) (st : CacheState)
    (v1 v2 : GoVal) (st1 st2 : CacheState) (t1 t2 : List IOEvent)
    (h1 : ReadInfoForRef env basefile ref st = (GoOutcome.ok (v1, st1), t1))
    (h2 : ReadInfoForRef env basefile ref st1 = (GoOutcome.ok (v2, st2), t2)) :
    v2 = v1 ∧ t2 = [] ∧ (t1 ++ t2).length ≤ 1 := by
  have hl := readInfoForRef_ok_lookup env basefile ref st h1
  have h2' : ReadInfoForRef env basefile ref st1 =
      (GoOutcome.ok (v1, { info_cache := some (st1.info_cache.getD []), count := st1.count }),
       []) := by
    unfold ReadInfoForRef
    rw [hl]
  rw [h2'] at h2
  simp only [Prod.mk.injEq, GoOutcome.ok.injEq] at h2
  obtain ⟨⟨hv, _⟩, ht⟩ := h2
  have hlen := readInfoForRef_events_len env basefile ref st
  rw [h1] at hlen
  refine ⟨hv.symm, ht.symm, ?_⟩
  rw [← ht]
  simpa using hlen

/-- C2 witness: a concrete double resolution of `#/a` against a local
document `a: v`; the second call returns the same value with no I/O, and one
file read happens in total. -/
theorem readInfoForRef_idempotent_witness :
    GoVal.str "v" = GoVal.str "v" ∧ ([] : List IOEvent) = [] ∧
    (([IOEvent.fileReadOf "root.yaml"] ++ ([] : List IOEvent)).length ≤ 1) :=
  readInfoForRef_idempotent envLocalDoc "root.yaml" "#/a"
    { info_cache := none, count := 0 }
    (GoVal.str "v") (GoVal.str "v")
    { info_cache := some [("#/a", GoVal.str "v")], count := 1 }
    { info_cache := some [("#/a", GoVal.str "v")], count := 1 }
    [IOEvent.fileReadOf "root.yaml"] []
    rfl rfl

/-- C10: every successful `ReadInfoForRef` call leaves the computed value in
the cache under the original reference string, and preserves every existing
cache entry (nothing is removed or overwritten). -/
theorem readInfoForRef_cache_monotone (env : Env) (basefile ref : String) (st : CacheState)
    (v : GoVal) (st' : CacheState) (t : List IOEvent)
    (h : ReadInfoForRef env basefile ref st = (GoOutcome.ok (v, st'), t)) :
    cacheLookup (st'.info_cache.getD []) ref = some v ∧
    ∀ k w, cacheLookup (st.info_cache.getD []) k = some w →
      cacheLookup (st'.info_cache.getD []) k = some w := by
  refine ⟨readInfoForRef_ok_lookup env basefile ref st h, ?_⟩
  intro k w hw
  unfold ReadInfoForRef at h
  split at h
  · rename_i info hc
    simp only [Prod.mk.injEq, GoOutcome.ok.injEq] at h
    obtain ⟨⟨hv, hst⟩, ht⟩ := h
    subst hst
    simpa using hw
  · rename_i hc
    split at h
    · rename_i info0 evs hrf
      simp only [Prod.mk.injEq, GoOutcome.ok.injEq] at h
      obtain ⟨⟨hv, hst⟩, ht⟩ := h
      subst hst
      by_cases hk : ref = k
      · subst hk
        rw [hc] at hw
        exact absurd hw (by simp)
      · simpa [cacheLookup, hk] using hw
    · simp at h
    · simp at h

/-- C10 witness: resolving `#/a` from an empty cache stores the resolved
value under `#/a` and (vacuously) preserves the empty cache's entries. -/
theorem readInfoForRef_cache_monotone_witness :
    cacheLookup
        (({ info_cache := some [("#/a", GoVal.str "v")], count := 1 } : CacheState).info_cache.getD [])
        "#/a" = some (GoVal.str "v") ∧
    ∀ k w,
      cacheLookup (({ info_cache := none, count := 0 } : CacheState).info_cache.getD []) k = some w →
      cacheLookup
        (({ info_cache := some [("#/a", GoVal.str "v")], count := 1 } : CacheState).info_cache.getD [])
        k = some w :=
  readInfoForRef_cache_monotone envLocalDoc "root.yaml" "#/a"
    { info_cache := none, count := 0 }
    (GoVal.str "v")
    { info_cache := some [("#/a", GoVal.str "v")], count := 1 }
    [IOEvent.fileReadOf "root.yaml"]
    rfl

/-- C1 counterexample: the fragment `#/missing` names a key absent from the
loaded document `a: v`, yet `ReadInfoForRef` succeeds and returns the whole
document node (and caches it) instead of failing with any error. -/
theorem readInfoForRef_missing_key_returns_node :
    MapHasKey [(GoVal.str "a", GoVal.str "v")] "missing" = Except.ok false ∧
    ReadInfoForRef envLocalDoc "root.yaml" "#/missing" { info_cache := none, count := 0 } =
      (GoOutcome.ok (GoVal.mapSlice [(GoVal.str "a", GoVal.str "v")],
        { info_cache := some [("#/missing", GoVal.mapSlice [(GoVal.str "a", GoVal.str "v")])],
          count := 1 }),
       [IOEvent.fileReadOf "root.yaml"]) :=
  ⟨rfl, rfl⟩

/-- C1 (amended): when the fragment path cannot be walked to completion,
`ReadInfoForRef` does not fail: whenever the document load succeeds, the
resolver returns successfully, and each unconsumable segment (current node
not a Mapping, or key absent from the current Mapping) is silently skipped,
leaving the current node unchanged. -/
theorem readInfoForRef_silent_walk :
    (∀ env basefile ref st d evs,
      cacheLookup (st.info_cache.getD []) ref = none →
      ReadFile env (refFilename basefile ref) = (GoOutcome.ok d, evs) →
      ∃ v st', ReadInfoForRef env basefile ref st = (GoOutcome.ok (v, st'), evs)) ∧
    (∀ info key, (∀ m, info ≠ GoVal.mapSlice m) → walkStep info key = info) ∧
    (∀ m key, (∀ kv ∈ m, keyEqString kv.1 key = false) →
      walkStep (GoVal.mapSlice m) key = GoVal.mapSlice m) := by
  refine ⟨?_, ?_, ?_⟩
  · intro env basefile ref st d evs hc hrf
    refine ⟨walkRef ref d,
      { info_cache := some ((ref, walkRef ref d) :: st.info_cache.getD []),
        count := st.count + 1 }, ?_⟩
    unfold ReadInfoForRef
    rw [hc, hrf]
  · intro info key h
    cases info <;> first | rfl | exact absurd rfl (h _)
  · intro m key h
    show lookupScan m key (GoVal.mapSlice m) = GoVal.mapSlice m
    exact lookupScan_of_no_match m key _ h

/-- C1 witness for the amended claim: a successful load of `a: v` makes the
resolution of `#/nope` succeed; a scalar node and a mapping without the key
are both left unchanged by a walk step. -/
theorem readInfoForRef_silent_walk_witness :
    (∃ v st', ReadInfoForRef envLocalDoc "root.yaml" "#/nope" { info_cache := none, count := 0 } =
        (GoOutcome.ok (v, st'), [IOEvent.fileReadOf "root.yaml"])) ∧
    walkStep (GoVal.str "leaf") "k" = GoVal.str "leaf" ∧
    walkStep (GoVal.mapSlice [(GoVal.str "a", GoVal.nil)]) "nope" =
      GoVal.mapSlice [(GoVal.str "a", GoVal.nil)] :=
  ⟨readInfoForRef_silent_walk.1 envLocalDoc "root.yaml" "#/nope"
      { info_cache := none, count := 0 } _ _ rfl rfl,
   readInfoForRef_silent_walk.2.1 (GoVal.str "leaf") "k" (fun m h => GoVal.noConfusion h),
   readInfoForRef_silent_walk.2.2 [(GoVal.str "a", GoVal.nil)] "nope" (by decide)⟩

/-- C3 counterexample: a reference to a local file that cannot be read makes
`ReadFile` terminate the whole process (`os.Exit(1)`) instead of propagating
a typed error to the caller. -/
theorem readFile_missing_file_exits :
    ReadFile envMissingFile "nofile.yaml" =
      (GoOutcome.exited 1, [IOEvent.fileReadOf "nofile.yaml"]) :=
  rfl

/-- C3 (amended): for every locator that is classified as a local file and
whose read fails, `ReadFile` prints the error and exits the process with
status 1; no error value is returned to the caller. -/
theorem readFile_local_error_exits (env : Env) (f : String)
    (hu : env.urlParse f = some "") (hr : env.readLocalFile f = none) :
    ReadFile env f = (GoOutcome.exited 1, [IOEvent.fileReadOf f]) := by
  unfold ReadFile
  rw [hu, hr]
  rfl

/-- C3 witness for the amended claim: a concrete missing local file exits
the process. -/
theorem readFile_local_error_exits_witness :
    ReadFile envMissingFile "a.yaml" = (GoOutcome.exited 1, [IOEvent.fileReadOf "a.yaml"]) :=
  readFile_local_error_exits envMissingFile "a.yaml" rfl rfl

/-- C4 counterexample: bytes that do not parse (`yaml.Unmarshal` errors) make
`ReadFile` return the zero-value empty mapping successfully — the parse error
is silently swallowed, not propagated. -/
theorem readFile_parse_error_returns_empty :
    envBadYaml.unmarshal "not yaml" = none ∧
    ReadFile envBadYaml "bad.yaml" =
      (GoOutcome.ok (GoVal.mapSlice []), [IOEvent.fileReadOf "bad.yaml"]) :=
  ⟨rfl, rfl⟩

/-- C4 (amended): for every local file whose bytes fail to unmarshal,
`ReadFile` ignores the error and returns the zero-value (empty) mapping as a
successful result. -/
theorem readFile_unmarshal_error_zero_value (env : Env) (f bytes : String)
    (hu : env.urlParse f = some "") (hr : env.readLocalFile f = some bytes)
    (hm : env.unmarshal bytes = none) :
    ReadFile env f = (GoOutcome.ok (GoVal.mapSlice []), [IOEvent.fileReadOf f]) := by
  unfold ReadFile
  rw [hu, hr]
  show (GoOutcome.ok (GoVal.mapSlice ((env.unmarshal bytes).getD [])), [IOEvent.fileReadOf f]) = _
  rw [hm]
  rfl

/-- C4 witness for the amended claim: a concrete unparseable local file
yields the empty mapping. -/
theorem readFile_unmarshal_error_zero_value_witness :
    ReadFile envBadYaml "b.yaml" =
      (GoOutcome.ok (GoVal.mapSlice []), [IOEvent.fileReadOf "b.yaml"]) :=
  readFile_unmarshal_error_zero_value envBadYaml "b.yaml" "not yaml" rfl rfl rfl

/-- C5 counterexample: a URL file part and an absolute file part are both
prefixed with the base directory instead of passing through unchanged. -/
theorem refFilename_no_passthrough :
    refFilename "spec/root.yaml" "http://example.com/other.yaml#/definitions/Widget" =
      "spec/http://example.com/other.yaml" ∧
    "spec/http://example.com/other.yaml" ≠ "http://example.com/other.yaml" ∧
    refFilename "spec/root.yaml" "/abs/other.yaml#/definitions/Widget" = "spec//abs/other.yaml" ∧
    "spec//abs/other.yaml" ≠ "/abs/other.yaml" :=
  ⟨rfl, by decide, rfl, by decide⟩

theorem stringMk_eq_empty_iff (cs : List Char) : String.mk cs = "" ↔ cs = [] := by
  constructor
  · intro h
    exact congrArg String.data h
  · intro h
    rw [h]

/-- C5 (amended): the locator to load is always the concatenation of the
directory component of the base locator and the file part (the text of the
reference before the first `#`), with no special-casing of URLs or absolute
paths; when the file part is empty the locator is the base locator itself. -/
theorem refFilename_concat (basefile ref : String) :
    refFilename basefile ref =
      if ref.toList.takeWhile (fun c => c ≠ '#') = [] then basefile
      else dirOf basefile ++ String.mk (ref.toList.takeWhile (fun c => c ≠ '#')) := by
  unfold refFilename
  rw [splitString_headD '#' ref]
  by_cases h : ref.toList.takeWhile (fun c => c ≠ '#') = []
  · rw [h]
    have h0 : String.mk ([] : List Char) = "" := rfl
    rw [if_neg (fun hne => hne h0), if_pos rfl]
  · rw [if_neg h]
    have h1 : String.mk (ref.toList.takeWhile (fun c => c ≠ '#')) ≠ "" :=
      fun hc => h ((stringMk_eq_empty_iff _).mp hc)
    rw [if_pos h1]

/-- C9: `ReadFile` performs an HTTP GET exactly when the locator parses with
a non-empty scheme component, and otherwise reads the locator from the local
filesystem. -/
theorem readFile_url_classification (env : Env) (f scheme : String)
    (h : env.urlParse f = some scheme) :
    (scheme ≠ "" → (ReadFile env f).2 = [IOEvent.httpGetOf f]) ∧
    (scheme = "" → (ReadFile env f).2 = [IOEvent.fileReadOf f]) := by
  constructor
  · intro hs
    unfold ReadFile
    rw [h]
    simp only [if_pos hs]
    split <;> rfl
  · intro hs
    have hns : ¬(scheme ≠ "") := fun hne => hne hs
    unfold ReadFile
    rw [h]
    simp only [if_neg hns]
    split <;> rfl

/-- C9 witness: a locator with scheme `http` is fetched over HTTP, a locator
with empty scheme is read from disk. -/
theorem readFile_url_classification_witness :
    (ReadFile envHttp "http://h/a.yaml").2 = [IOEvent.httpGetOf "http://h/a.yaml"] ∧
    (ReadFile envLocalDoc "spec/root.yaml").2 = [IOEvent.fileReadOf "spec/root.yaml"] :=
  ⟨(readFile_url_classification envHttp "http://h/a.yaml" "http" rfl).1 (by decide),
   (readFile_url_classification envLocalDoc "spec/root.yaml" "" rfl).2 rfl⟩

/-- C6: the missing-key list is a sublist of the required keys (hence
preserves their order), and a required key appears in it exactly when
`MapHasKey` answers false for it. -/
theorem missingKeysInMap_spec (m : MapSlice) (required : List String) (l : List String)
    (h : MissingKeysInMap m required = Except.ok l) :
    l.Sublist required ∧ ∀ k ∈ required, (k ∈ l ↔ MapHasKey m k = Except.ok false) := by
  induction required generalizing l with
  | nil =>
    simp only [MissingKeysInMap, Except.ok.injEq] at h
    subst h
    exact ⟨List.nil_sublist [], by simp⟩
  | cons k rest ih =>
    simp only [MissingKeysInMap] at h
    split at h
    · rename_i b hk
      split at h
      · rename_i l0 hrest
        injection h with hl
        obtain ⟨hs, hiff⟩ := ih l0 hrest
        cases b with
        | true =>
          rw [if_pos rfl] at hl
          subst hl
          refine ⟨hs.cons k, ?_⟩
          intro k' hk'
          rcases List.mem_cons.mp hk' with hkk | hkr
          · subst hkk
            constructor
            · intro hkl
              have hmem : k' ∈ rest := hs.subset hkl
              have hfalse := (hiff k' hmem).mp hkl
              rw [hk] at hfalse
              exact absurd hfalse (by simp)
            · intro hfalse
              rw [hk] at hfalse
              exact absurd hfalse (by simp)
          · exact hiff k' hkr
        | false =>
          rw [if_neg (by simp)] at hl
          subst hl
          refine ⟨hs.cons₂ k, ?_⟩
          intro k' hk'
          rcases List.mem_cons.mp hk' with hkk | hkr
          · subst hkk
            exact iff_of_true (List.mem_cons_self k' l0) hk
          · by_cases hkeq : k' = k
            · subst hkeq
              exact iff_of_true (List.mem_cons_self k' l0) hk
            · constructor
              · intro hmem
                rcases List.mem_cons.mp hmem with h1 | h2
                · exact absurd h1 hkeq
                · exact (hiff k' hkr).mp h2
              · intro hf
                exact List.mem_cons_of_mem k ((hiff k' hkr).mpr hf)
      · exact absurd h (by simp)
    · exact absurd h (by simp)

/-- C6 witness: required keys `x, a` against the mapping `a: nil`: `x` is
missing, `a` is not, and the result preserves order. -/
theorem missingKeysInMap_spec_witness :
    (["x"] : List String).Sublist ["x", "a"] ∧
    ∀ k ∈ (["x", "a"] : List String),
      (k ∈ (["x"] : List String) ↔ MapHasKey [(GoVal.str "a", GoVal.nil)] k = Except.ok false) :=
  missingKeysInMap_spec [(GoVal.str "a", GoVal.nil)] ["x", "a"] ["x"] rfl

theorem patternMatches_eq (matchRE : String → String → Except String Bool)
    (p v : String) : PatternMatches matchRE p v = matchRE p v := by
  rcases h : matchRE p v with e | b <;> simp [PatternMatches, h]

theorem findPatternMatch_ok_true (matchRE : String → String → Except String Bool)
    (key : String) (ps : List String)
    (h : findPatternMatch matchRE key ps = Except.ok true) :
    ∃ p ∈ ps, matchRE p key = Except.ok true := by
  induction ps with
  | nil => simp [findPatternMatch] at h
  | cons p rest ih =>
    rcases hm : matchRE p key with e | b
    · simp [findPatternMatch, patternMatches_eq, hm] at h
    · cases b with
      | false =>
        simp only [findPatternMatch, patternMatches_eq, hm] at h
        obtain ⟨q, hq, hmq⟩ := ih h
        exact ⟨q, List.mem_cons_of_mem p hq, hmq⟩
      | true => exact ⟨p, List.mem_cons_self p rest, hm⟩

theorem findPatternMatch_ok_false (matchRE : String → String → Except String Bool)
    (key : String) (ps : List String)
    (h : findPatternMatch matchRE key ps = Except.ok false) :
    ∀ p ∈ ps, matchRE p key = Except.ok false := by
  induction ps with
  | nil => intro p hp; cases hp
  | cons q rest ih =>
    intro p hp
    rcases hm : matchRE q key with e | b
    · simp [findPatternMatch, patternMatches_eq, hm] at h
    · cases b with
      | false =>
        simp only [findPatternMatch, patternMatches_eq, hm] at h
        rcases List.mem_cons.mp hp with h1 | h2
        · subst h1; exact hm
        · exact ih h p h2
      | true => simp [findPatternMatch, patternMatches_eq, hm] at h

/-- C7: the invalid-key list is empty exactly when every key of the mapping
either literally equals an allowed key or matches some allowed pattern, and
the result keys appear in the mapping's iteration order. -/
theorem invalidKeysInMap_spec (matchRE : String → String → Except String Bool)
    (m : MapSlice) (allowed patterns : List String) (l : List String)
    (h : InvalidKeysInMap matchRE m allowed patterns = Except.ok l) :
    (l = [] ↔ ∀ kv ∈ m, ∃ s, kv.1 = GoVal.str s ∧
        (s ∈ allowed ∨ ∃ p ∈ patterns, matchRE p s = Except.ok true)) ∧
    l.Sublist (stringKeys m) := by
  induction m generalizing l with
  | nil =>
    simp only [InvalidKeysInMap, Except.ok.injEq] at h
    subst h
    exact ⟨by simp, by simp [stringKeys]⟩
  | cons kv rest ih =>
    obtain ⟨k, v⟩ := kv
    cases k with
    | str key =>
      simp only [InvalidKeysInMap] at h
      have hkeys : stringKeys ((GoVal.str key, v) :: rest) = key :: stringKeys rest := rfl
      by_cases ha : key ∈ allowed
      · rw [if_pos ha] at h
        obtain ⟨hiff, hsub⟩ := ih l h
        constructor
        · rw [hiff]
          constructor
          · intro hall kv' hkv'
            rcases List.mem_cons.mp hkv' with h1 | h2
            · subst h1
              exact ⟨key, rfl, Or.inl ha⟩
            · exact hall kv' h2
          · intro hall kv' hkv'
            exact hall kv' (List.mem_cons_of_mem _ hkv')
        · rw [hkeys]
          exact hsub.cons key
      · rw [if_neg ha] at h
        split at h
        · rename_i found hf
          split at h
          · rename_i l0 hr
            injection h with hl
            obtain ⟨hiff0, hsub0⟩ := ih l0 hr
            cases found with
            | true =>
              rw [if_pos rfl] at hl
              subst hl
              obtain ⟨p, hp, hmp⟩ := findPatternMatch_ok_true matchRE key patterns hf
              constructor
              · rw [hiff0]
                constructor
                · intro hall kv' hkv'
                  rcases List.mem_cons.mp hkv' with h1 | h2
                  · subst h1
                    exact ⟨key, rfl, Or.inr ⟨p, hp, hmp⟩⟩
                  · exact hall kv' h2
                · intro hall kv' hkv'
                  exact hall kv' (List.mem_cons_of_mem _ hkv')
              · rw [hkeys]
                exact hsub0.cons key
            | false =>
              rw [if_neg (by simp)] at hl
              subst hl
              have hnone := findPatternMatch_ok_false matchRE key patterns hf
              constructor
              · refine iff_of_false (by simp) ?_
                intro hall
                obtain ⟨s, hs, hor⟩ := hall (GoVal.str key, v) (List.mem_cons_self _ _)
                have hks : key = s := by
                  injection hs
                subst hks
                rcases hor with hin | ⟨p, hp, hmp⟩
                · exact ha hin
                · rw [hnone p hp] at hmp
                  exact absurd hmp (by simp)
              · rw [hkeys]
                exact hsub0.cons₂ key
          · exact absurd h (by simp)
        · exact absurd h (by simp)
    | nil => simp [InvalidKeysInMap] at h
    | int i => simp [InvalidKeysInMap] at h
    | bool b => simp [InvalidKeysInMap] at h
    | mapSlice mm => simp [InvalidKeysInMap] at h
    | seq ss => simp [InvalidKeysInMap] at h

/-- C7 witness: the mapping `a: nil` with allowed key `a` and no patterns
has no invalid keys, and the characterization holds for it. -/
theorem invalidKeysInMap_spec_witness :
    (([] : List String) = [] ↔
      ∀ kv ∈ ([(GoVal.str "a", GoVal.nil)] : MapSlice), ∃ s, kv.1 = GoVal.str s ∧
        (s ∈ (["a"] : List String) ∨
          ∃ p ∈ ([] : List String), matchFailsOnOpenParen p s = Except.ok true)) ∧
    ([] : List String).Sublist (stringKeys [(GoVal.str "a", GoVal.nil)]) :=
  invalidKeysInMap_spec matchFailsOnOpenParen [(GoVal.str "a", GoVal.nil)] ["a"] [] [] rfl

theorem collectKeys_total (m : MapSlice)
    (hkeys : ∀ kv ∈ m, ∃ s, kv.1 = GoVal.str s) :
    ∃ l, collectKeys m = Except.ok l := by
  induction m with
  | nil => exact ⟨[], rfl⟩
  | cons kv rest ih =>
    obtain ⟨k, v⟩ := kv
    obtain ⟨s, hs⟩ := hkeys (k, v) (List.mem_cons_self _ _)
    have hk : k = GoVal.str s := hs
    subst hk
    obtain ⟨l, hl⟩ := ih (fun kv' h' => hkeys kv' (List.mem_cons_of_mem _ h'))
    exact ⟨s :: l, by simp [collectKeys, hl]⟩

theorem mapHasKey_total (m : MapSlice)
    (hkeys : ∀ kv ∈ m, ∃ s, kv.1 = GoVal.str s) (key : String) :
    ∃ b, MapHasKey m key = Except.ok b := by
  induction m with
  | nil => exact ⟨false, rfl⟩
  | cons kv rest ih =>
    obtain ⟨k, v⟩ := kv
    obtain ⟨s, hs⟩ := hkeys (k, v) (List.mem_cons_self _ _)
    have hk : k = GoVal.str s := hs
    subst hk
    obtain ⟨b, hb⟩ := ih (fun kv' h' => hkeys kv' (List.mem_cons_of_mem _ h'))
    by_cases hkey : key = s
    · exact ⟨true, by simp [MapHasKey, hkey]⟩
    · exact ⟨b, by simp [MapHasKey, hkey, hb]⟩

theorem mapValueForKey_total (m : MapSlice)
    (hkeys : ∀ kv ∈ m, ∃ s, kv.1 = GoVal.str s) (key : String) :
    ∃ v, MapValueForKey m key = Except.ok v := by
  induction m with
  | nil => exact ⟨GoVal.nil, rfl⟩
  | cons kv rest ih =>
    obtain ⟨k, v⟩ := kv
    obtain ⟨s, hs⟩ := hkeys (k, v) (List.mem_cons_self _ _)
    have hk : k = GoVal.str s := hs
    subst hk
    obtain ⟨w, hw⟩ := ih (fun kv' h' => hkeys kv' (List.mem_cons_of_mem _ h'))
    by_cases hkey : key = s
    · exact ⟨v, by simp [MapValueForKey, hkey]⟩
    · exact ⟨w, by simp [MapValueForKey, hkey, hw]⟩

theorem missingKeysInMap_total (m : MapSlice) (required : List String)
    (hkeys : ∀ kv ∈ m, ∃ s, kv.1 = GoVal.str s) :
    ∃ l, MissingKeysInMap m required = Except.ok l := by
  induction required with
  | nil => exact ⟨[], rfl⟩
  | cons k rest ih =>
    obtain ⟨b, hb⟩ := mapHasKey_total m hkeys k
    obtain ⟨l, hl⟩ := ih
    exact ⟨if b then l else k :: l, by simp [MissingKeysInMap, hb, hl]⟩

theorem findPatternMatch_total (matchRE : String → String → Except String Bool)
    (hre : ∀ p v, ∃ b, matchRE p v = Except.ok b) (key : String) (ps : List String) :
    ∃ b, findPatternMatch matchRE key ps = Except.ok b := by
  induction ps with
  | nil => exact ⟨false, rfl⟩
  | cons p rest ih =>
    obtain ⟨b, hb⟩ := hre p key
    obtain ⟨b0, hb0⟩ := ih
    cases b with
    | true => exact ⟨true, by simp [findPatternMatch, patternMatches_eq, hb]⟩
    | false => exact ⟨b0, by simp [findPatternMatch, patternMatches_eq, hb, hb0]⟩

theorem invalidKeysInMap_total (matchRE : String → String → Except String Bool)
    (m : MapSlice) (allowed patterns : List String)
    (hkeys : ∀ kv ∈ m, ∃ s, kv.1 = GoVal.str s)
    (hre : ∀ p v, ∃ b, matchRE p v = Except.ok b) :
    ∃ l, InvalidKeysInMap matchRE m allowed patterns = Except.ok l := by
  induction m with
  | nil => exact ⟨[], rfl⟩
  | cons kv rest ih =>
    obtain ⟨k, v⟩ := kv
    obtain ⟨s, hs⟩ := hkeys (k, v) (List.mem_cons_self _ _)
    have hk : k = GoVal.str s := hs
    subst hk
    obtain ⟨l, hl⟩ := ih (fun kv' h' => hkeys kv' (List.mem_cons_of_mem _ h'))
    by_cases ha : s ∈ allowed
    · exact ⟨l, by simp [InvalidKeysInMap, ha, hl]⟩
    · obtain ⟨b, hb⟩ := findPatternMatch_total matchRE hre s patterns
      exact ⟨if b then l else s :: l, by simp [InvalidKeysInMap, ha, hb, hl]⟩

/-- C8 counterexample: the key-set helpers are not total: `MapHasKey`
panics on a mapping whose key is not a string (the `item.Key.(string)`
assertion), and `InvalidKeysInMap` panics when an allowed pattern makes the
regular-expression engine report an error (the `panic(err)` branch of
`PatternMatches`), here the non-compiling pattern `(`. -/
theorem mapHasKey_nonstring_key_panics :
    MapHasKey [(GoVal.int 1, GoVal.nil)] "x" =
      Except.error "interface conversion: interface is not string" ∧
    InvalidKeysInMap matchFailsOnOpenParen [(GoVal.str "k", GoVal.nil)] [] ["("] =
      Except.error "error parsing regexp: missing closing )" :=
  ⟨rfl, rfl⟩

/-- C8 (amended): the key-set helpers are pure and total — never reaching
the panic paths — provided every key of the mapping is a string and (for
`InvalidKeysInMap`) the regular-expression engine succeeds on every pattern;
a non-string key or a non-compiling pattern panics instead. -/
theorem helpers_total_on_string_keys
    (matchRE : String → String → Except String Bool) (m : MapSlice)
    (required allowed patterns : List String)
    (hkeys : ∀ kv ∈ m, ∃ s, kv.1 = GoVal.str s)
    (hre : ∀ p v, ∃ b, matchRE p v = Except.ok b) :
    (∃ l, SortedKeysForMap m = Except.ok l) ∧
    (∀ key, ∃ b, MapHasKey m key = Except.ok b) ∧
    (∀ key, ∃ v, MapValueForKey m key = Except.ok v) ∧
    (∃ l, MissingKeysInMap m required = Except.ok l) ∧
    (∃ l, InvalidKeysInMap matchRE m allowed patterns = Except.ok l) := by
  refine ⟨?_, fun key => mapHasKey_total m hkeys key,
    fun key => mapValueForKey_total m hkeys key,
    missingKeysInMap_total m required hkeys,
    invalidKeysInMap_total matchRE m allowed patterns hkeys hre⟩
  obtain ⟨l, hl⟩ := collectKeys_total m hkeys
  exact ⟨sortStrings l, by simp [SortedKeysForMap, hl]⟩

/-- C8 witness for the amended claim: with the string-keyed mapping `a: nil`
and an engine that always answers, every helper returns a value. -/
theorem helpers_total_on_string_keys_witness :
    (∃ l, SortedKeysForMap [(GoVal.str "a", GoVal.nil)] = Except.ok l) ∧
    (∀ key, ∃ b, MapHasKey [(GoVal.str "a", GoVal.nil)] key = Except.ok b) ∧
    (∀ key, ∃ v, MapValueForKey [(GoVal.str "a", GoVal.nil)] key = Except.ok v) ∧
    (∃ l, MissingKeysInMap [(GoVal.str "a", GoVal.nil)] ["r"] = Except.ok l) ∧
    (∃ l, InvalidKeysInMap (fun _ _ => Except.ok false)
        [(GoVal.str "a", GoVal.nil)] ["a"] ["p"] = Except.ok l) :=
  helpers_total_on_string_keys (fun _ _ => Except.ok false)
    [(GoVal.str "a", GoVal.nil)] ["r"] ["a"] ["p"]
    (by
      intro kv h
      rw [List.mem_singleton] at h
      subst h
      exact ⟨"a", rfl⟩)
    (fun p v => ⟨false, rfl⟩)
